import Mathlib

/-
Verification of the numerical path-generation pipeline of
scripts/pulse_viz_generator.py: contextual color banding, Catmull-Rom
spline interpolation, Douglas-Peucker simplification, SVG path encoding
and data normalization.

Modelling conventions:
* Python floats are modelled as exact rationals (ℚ); values produced by
  square roots live in ℝ.
* Python lists of coordinate pairs are List (ℚ × ℚ).
* Code that can raise a runtime exception (division by zero) is modelled
  with Option: none models the raised exception.
-/

open List

/-- Plotting-space coordinate pair, `(x, y)`. -/
abbrev Pt : Type := ℚ × ℚ

/-- `FinancialColors.EMERALD_STRONG`. -/
def EMERALD_STRONG : String := "hsl(145, 67%, 42%)"

/-- `FinancialColors.TEAL_MILD`. -/
def TEAL_MILD : String := "hsl(165, 55%, 48%)"

/-- `FinancialColors.SLATE_NEUTRAL`. -/
def SLATE_NEUTRAL : String := "hsl(220, 15%, 55%)"

/-- `FinancialColors.AMBER_CAUTION`. -/
def AMBER_CAUTION : String := "hsl(38, 65%, 52%)"

/-- `FinancialColors.CRIMSON_WARNING`. -/
def CRIMSON_WARNING : String := "hsl(0, 72%, 42%)"

/-- `FinancialColors.contextual_color` (pulse_viz_generator.py lines 42-49):
`ratio = value / benchmark if benchmark != 0 else 1.0`, then five
descending `>=` bands. -/
def contextual_color (value benchmark : ℚ) : String :=
  let ratio := if benchmark ≠ 0 then value / benchmark else 1
  if ratio ≥ 1.15 then EMERALD_STRONG
  else if ratio ≥ 1.05 then TEAL_MILD
  else if ratio ≥ 0.95 then SLATE_NEUTRAL
  else if ratio ≥ 0.85 then AMBER_CAUTION
  else CRIMSON_WARNING

/-- Spec-side banding function, written from the spec's words: "by ratio
... across five bands (≥1.15 strong-positive, ≥1.05 mild-positive, ≥0.95
neutral, ≥0.85 mild-negative, else strong-negative — bands are closed on
the lower bound, evaluated in descending order, first match wins)".
Used only to compare `contextual_color` against the specified banding. -/
def specBand (r : ℚ) : String :=
  if 115/100 ≤ r then EMERALD_STRONG
  else if 105/100 ≤ r then TEAL_MILD
  else if 95/100 ≤ r then SLATE_NEUTRAL
  else if 85/100 ≤ r then AMBER_CAUTION
  else CRIMSON_WARNING

/-- One sample of `CatmullRomSpline.interpolate`'s inner loop
(pulse_viz_generator.py lines 75-79), for a window `p0 p1 p2 p3` of the
padded control list and parameter `t = j / segments`.  The `3*p1.2` in
the cubic term of the x channel reproduces the source exactly: line 77
reads `3*p1[1]` (the y coordinate of `p1`) inside the x computation. -/
def catmullPoint (p0 p1 p2 p3 : Pt) (t : ℚ) : Pt :=
  let t2 := t * t
  let t3 := t * t * t
  (0.5 * ((2*p1.1) + (-p0.1+p2.1)*t + (2*p0.1-5*p1.1+4*p2.1-p3.1)*t2 + (-p0.1+3*p1.2-3*p2.1+p3.1)*t3),
   0.5 * ((2*p1.2) + (-p0.2+p2.2)*t + (2*p0.2-5*p1.2+4*p2.2-p3.2)*t2 + (-p0.2+3*p1.2-3*p2.2+p3.2)*t3))

/-- The loop `for i in range(len(padded) - 3): p0, p1, p2, p3 = padded[i:i+4]`
of `CatmullRomSpline.interpolate`, expressed as the equivalent sliding
window over the padded list: each step emits `segments` samples for the
current window and advances by one control point. -/
def spans (segments : Nat) : List Pt → List Pt
  | p0 :: p1 :: p2 :: p3 :: rest =>
      (List.range segments).map (fun (j : ℕ) => catmullPoint p0 p1 p2 p3 ((j : ℚ) / (segments : ℚ)))
        ++ spans segments (p1 :: p2 :: p3 :: rest)
  | _ => []

/-- `CatmullRomSpline.interpolate` (pulse_viz_generator.py lines 63-81):
fewer than 2 points are returned unchanged; exactly 2 points are linearly
interpolated over `range(segments + 1)`; otherwise the point list is
padded with duplicated endpoints, sampled window by window, and the last
control point is appended. -/
def interpolate (points : List Pt) (segments : Nat) : List Pt :=
  if points.length < 2 then points
  else if points.length = 2 then
    (List.range (segments + 1)).map (fun (i : ℕ) =>
      (points.headI.1 + (points.getLastI.1 - points.headI.1) * (i : ℚ) / (segments : ℚ),
       points.headI.2 + (points.getLastI.2 - points.headI.2) * (i : ℚ) / (segments : ℚ)))
  else
    spans segments (points.headI :: (points ++ [points.getLastI])) ++ [points.getLastI]

/-- Spec-side Catmull-Rom blend for a single channel, written from the
claim's formula: `0.5*((2*p1) + (-p0+p2)*t + (2*p0-5*p1+4*p2-p3)*t^2 +
(-p0+3*p1-3*p2+p3)*t^3)` applied to one channel's own coordinates.  Used
only to compare the code's x channel against the specified formula. -/
def catmullSpec (c0 c1 c2 c3 t : ℚ) : ℚ :=
  0.5 * ((2*c1) + (-c0+c2)*t + (2*c0-5*c1+4*c2-c3)*t^2 + (-c0+3*c1-3*c2+c3)*t^3)

/-- Numerator of `PathSimplifier._perp_dist` (pulse_viz_generator.py line
101): `abs((p2[1]-p1[1])*p[0] - (p2[0]-p1[0])*p[1] + p2[0]*p1[1] - p2[1]*p1[0])`. -/
def pnum (p a b : Pt) : ℚ :=
  |(b.2 - a.2) * p.1 - (b.1 - a.1) * p.2 + b.1 * a.2 - b.2 * a.1|

/-- Square of the denominator of `PathSimplifier._perp_dist` (line 102):
`den**2 = (p2[1]-p1[1])**2 + (p2[0]-p1[0])**2`. -/
def pden2 (a b : Pt) : ℚ :=
  (b.2 - a.2) ^ 2 + (b.1 - a.1) ^ 2

/-- `PathSimplifier._perp_dist` (lines 100-103): `num / den if den != 0
else 0` with `den = sqrt(pden2)`.  Since `pden2 ≥ 0`, `den ≠ 0` is
equivalent to `pden2 ≠ 0`, which keeps the guard decidable over ℚ. -/
noncomputable def perpDist (p a b : Pt) : ℝ :=
  if pden2 a b = 0 then 0 else (pnum p a b : ℝ) / Real.sqrt (pden2 a b)

/-- The scanning loop of `PathSimplifier.simplify` (lines 91-94):
`for i in range(1, len(points)-1): d = _perp_dist(points[i], points[0],
points[-1]); if d > dmax: dmax, index = d, i`.  All distances in one scan
share the same positive denominator `sqrt(pden2 a b)`, so the comparisons
`d > dmax` are carried out on the numerators; `best` holds the numerator
of the running maximum together with its index. -/
def scanAux (a b : Pt) : List Pt → Nat → ℚ × Nat → ℚ × Nat
  | [], _, best => best
  | q :: qs, i, best =>
      scanAux a b qs (i + 1) (if pnum q a b > best.1 then (pnum q a b, i) else best)

/-- Result `(dmax numerator, index)` of the scanning loop over the
interior points of `ps`.  When the chord is degenerate (`pden2 = 0`) the
source computes `d = 0` for every interior point, so `dmax, index` stay
at their initial value `(0, 0)`. -/
def scanRes (ps : List Pt) : ℚ × Nat :=
  if pden2 ps.headI ps.getLastI = 0 then (0, 0)
  else scanAux ps.headI ps.getLastI ((ps.drop 1).dropLast) 1 (0, 0)

/-- Fuelled `PathSimplifier.simplify` (lines 89-97).  The split test
`dmax > tolerance` with `dmax = nmax / sqrt(pden2)` is decided over ℚ:
for `tolerance < 0` it always holds (`dmax ≥ 0`), and otherwise it is
equivalent to `nmax^2 > tolerance^2 * pden2` because both sides of
`nmax > tolerance * sqrt(pden2)` are nonnegative.  The fuel only bounds
the recursion depth; `ps.length` is enough fuel whenever `tolerance ≥ 0`
(the source recursion terminates in exactly those cases). -/
def simplifyF : Nat → List Pt → ℚ → List Pt
  | 0, ps, _ => ps
  | fuel' + 1, ps, tol =>
    if ps.length < 3 then ps
    else if tol < 0 ∨ (scanRes ps).1 ^ 2 > tol ^ 2 * pden2 ps.headI ps.getLastI then
      (simplifyF fuel' (ps.take ((scanRes ps).2 + 1)) tol).dropLast
        ++ simplifyF fuel' (ps.drop (scanRes ps).2) tol
    else [ps.headI, ps.getLastI]

/-- `PathSimplifier.simplify` with fuel `ps.length`. -/
def simplify (ps : List Pt) (tol : ℚ) : List Pt :=
  simplifyF ps.length ps tol

/-- `Covers tol input output` states that `output` is a chain of retained
points of `input` in order, beginning and ending with the first and last
input points, and that every discarded input point lies within
perpendicular distance `tol` of the line through the two retained points
that are adjacent to it in `output`. -/
inductive Covers (tol : ℚ) : List Pt → List Pt → Prop
  | nil : Covers tol [] []
  | single (a : Pt) : Covers tol [a] [a]
  | step (a b : Pt) (mid P Q : List Pt)
      (hmid : ∀ q ∈ mid, perpDist q a b ≤ (tol : ℝ))
      (htail : Covers tol (b :: P) (b :: Q)) :
      Covers tol (a :: (mid ++ b :: P)) (a :: b :: Q)

/-- Fixed two-decimal formatting used by the f-strings `{x:.2f}`.
Model of Python's fixed-point formatting over ℚ: round to hundredths and
print with exactly two fractional digits.  (Python rounds ties to even;
the tie-breaking rule is irrelevant to every claim below.) -/
def fmt2 (q : ℚ) : String :=
  let n : Int := round (q * 100)
  let m := n.natAbs
  (if n < 0 then "-" else "") ++ toString (m / 100) ++ "."
    ++ (if m % 100 < 10 then "0" else "") ++ toString (m % 100)

/-- Model of Python's default `str` formatting used by `{baseline}` in
`create_area_path`.  Its exact digits are irrelevant to every claim. -/
def fmtPlain (q : ℚ) : String := toString q

/-- `SVGPathGenerator.points_to_path` (lines 110-112):
`"M " + " L ".join(f"{x:.2f} {y:.2f}" for x, y in points)`. -/
def points_to_path (points : List Pt) : String :=
  "M " ++ String.intercalate " L " (points.map (fun p => fmt2 p.1 ++ " " ++ fmt2 p.2))

/-- `SVGPathGenerator.calculate_path_length` (lines 114-119): sum over
`i in range(len(points) - 1)` of the Euclidean distances of consecutive
points. -/
noncomputable def calculate_path_length (points : List Pt) : ℝ :=
  (List.range (points.length - 1)).foldl
    (fun l i =>
      l + Real.sqrt ((((points.getD (i+1) default).1 - (points.getD i default).1 : ℚ) : ℝ) ^ 2
        + (((points.getD (i+1) default).2 - (points.getD i default).2 : ℚ) : ℝ) ^ 2)) 0

/-- `SVGPathGenerator.create_area_path` (lines 121-127): empty input
yields `""`; otherwise move to `(x0, baseline)`, line to `(x0, y0)`,
line through the remaining points, line to `(x_last, baseline)`, close. -/
def create_area_path (points : List Pt) (baseline : ℚ) : String :=
  if points.isEmpty then "" else
    "M " ++ fmt2 points.headI.1 ++ " " ++ fmtPlain baseline ++ " L "
      ++ fmt2 points.headI.1 ++ " " ++ fmt2 points.headI.2 ++ " "
      ++ String.intercalate " " ((points.drop 1).map (fun p => "L " ++ fmt2 p.1 ++ " " ++ fmt2 p.2))
      ++ " L " ++ fmt2 points.getLastI.1 ++ " " ++ fmtPlain baseline ++ " Z"

/-- The `DataPoint` dataclass (lines 133-137). -/
structure DataPoint where
  date : String
  value : ℚ
  category : String

/-- Python's `min` over a nonempty list (0 on the empty list, which the
source never reaches: `normalize` returns early on empty data). -/
def listMin : List ℚ → ℚ
  | [] => 0
  | v :: vs => vs.foldl min v

/-- Python's `max` over a nonempty list (0 on the empty list). -/
def listMax : List ℚ → ℚ
  | [] => 0
  | v :: vs => vs.foldl max v

namespace DataProcessor

/-- `DataProcessor.normalize` (lines 140-151).  The padded range
`v_range = v_max - v_min` is recomputed after padding; when it is zero
the per-point expression `(p.value - v_min) / v_range` raises
`ZeroDivisionError` in Python on the first data point, modelled here as
`none`. -/
def normalize (data : List DataPoint) (width height padding : ℚ) : Option (List Pt) :=
  if data.isEmpty then some [] else
  let vals := data.map (fun d => d.value)
  let vmin0 := listMin vals
  let vmax0 := listMax vals
  let vrange0 := max 1 (vmax0 - vmin0)
  let vmin := vmin0 - vrange0 * (padding / 100)
  let vmax := vmax0 + vrange0 * (padding / 100)
  let vrange := vmax - vmin
  if vrange = 0 then none
  else
    let xstep := if 1 < data.length then width / ((data.length : ℚ) - 1) else 0
    some (data.enum.map (fun ip =>
      ((ip.1 : ℚ) * xstep, height - (ip.2.value - vmin) / vrange * height)))

end DataProcessor

/-- The x coordinates of the three control points used in the C1 test
are all zero, so a symmetric Catmull-Rom x channel is identically zero. -/
theorem catmullSpec_zero_channel (t : ℚ) : catmullSpec 0 0 0 0 t = 0 := by
  simp [catmullSpec]

/-- Catmull-Rom sample at parameter 0 is the second window point. -/
theorem catmullPoint_at_zero (p0 p1 p2 p3 : Pt) : catmullPoint p0 p1 p2 p3 0 = p1 := by
  obtain ⟨x, y⟩ := p1
  simp only [catmullPoint, Prod.mk.injEq]
  constructor <;> ring

/-- Head of an append whose first part is nonempty. -/
theorem head?_append_left {α : Type} (xs ys : List α) (h : xs ≠ []) :
    (xs ++ ys).head? = xs.head? := by
  match xs, h with | a :: t, _ => simp

/-- On a nonempty list, `getLast?` returns `getLastI`. -/
theorem getLast?_eq_some_getLastI {α : Type} [Inhabited α] (l : List α) (h : l ≠ []) :
    l.getLast? = some l.getLastI := by
  rw [List.getLastI_eq_getLast?]
  cases hl : l.getLast? with
  | none => exact absurd (List.getLast?_eq_none_iff.mp hl) h
  | some a => simp

/-- C10: when the benchmark is exactly 0, `contextual_color` takes the
guarded branch, treats the ratio as 1.0 and returns the neutral slate
color, performing no division. -/
theorem c10_contextual_color_zero_benchmark (value : ℚ) :
    contextual_color value 0 = SLATE_NEUTRAL := by
  norm_num [contextual_color]

/-- C9: the perpendicular-distance computation returns 0 on a degenerate
chord whose two endpoints are identical, taking the guarded branch
instead of dividing by the zero-length denominator. -/
theorem c9_perp_dist_degenerate_chord (p a : Pt) : perpDist p a a = 0 := by
  simp [perpDist, pden2]

/-- C8: for a nonzero benchmark the contextual color is chosen by the
ratio `value / benchmark` through the spec's five descending bands with
closed lower bounds, and each boundary ratio resolves to the higher
band. -/
theorem c8_contextual_color_bands (value benchmark : ℚ) (h : benchmark ≠ 0) :
    contextual_color value benchmark = specBand (value / benchmark) ∧
    specBand (115/100) = EMERALD_STRONG ∧
    specBand (105/100) = TEAL_MILD ∧
    specBand (95/100) = SLATE_NEUTRAL ∧
    specBand (85/100) = AMBER_CAUTION := by
  refine ⟨?_, by norm_num [specBand], by norm_num [specBand],
    by norm_num [specBand], by norm_num [specBand]⟩
  simp only [contextual_color, specBand, h, ne_eq, not_false_eq_true, if_true, ge_iff_le]
  norm_num

/-- Closed instance of `c8_contextual_color_bands` at `value = 23`,
`benchmark = 20`. -/
theorem c8_contextual_color_bands_witness :
    ((20:ℚ) ≠ 0) ∧
    (contextual_color 23 20 = specBand (23 / 20) ∧
     specBand (115/100) = EMERALD_STRONG ∧
     specBand (105/100) = TEAL_MILD ∧
     specBand (95/100) = SLATE_NEUTRAL ∧
     specBand (85/100) = AMBER_CAUTION) :=
  ⟨by norm_num, c8_contextual_color_bands 23 20 (by norm_num)⟩

/-- C2 counterexample: on the empty polyline the line-path string is not
empty; the source's `"M " + " L ".join(...)` leaves the bare `"M "`. -/
theorem c2_counterexample_line_path : points_to_path [] ≠ "" := by decide

/-- C2 amended: on the empty polyline the area-path string is empty and
the path length is zero, but the line-path string is the bare move
command `"M "`, not the empty string. -/
theorem c2_amended_empty_polyline (baseline : ℚ) :
    points_to_path [] = "M " ∧
    create_area_path [] baseline = "" ∧
    calculate_path_length [] = 0 := by
  refine ⟨by decide, by simp [create_area_path], ?_⟩
  simp [calculate_path_length]

/-- C6: `normalize` faults (raises `ZeroDivisionError`, modelled `none`)
on a single constant data point with padding 0: the guarded raw range
`max(1, v_max - v_min)` is discarded when `v_range` is recomputed from
the padded bounds, which are equal when `padding = 0` and all values are
equal.  The claim promises a length-1 polyline with y within `[0, 40]`. -/
theorem c6_normalize_zero_range_fault :
    DataProcessor.normalize [⟨"2024-01-01", 5, "default"⟩] 100 40 0 = none := by
  norm_num [DataProcessor.normalize, listMin, listMax]

/-- C1: the code's x channel is not the claimed Catmull-Rom blend of the
x coordinates: on control points `(0,0), (0,1), (0,2)` (all x
coordinates zero) with 2 segments, the symmetric per-channel formula
forces every output x to 0, yet the code outputs a point with
`x = 3/16`, because line 77 reads `3*p1[1]` (a y coordinate) in the
cubic term of the x channel. -/
theorem c1_interpolate_x_channel_asymmetry :
    interpolate [((0:ℚ),(0:ℚ)),(0,1),(0,2)] 2
      = [(0,0),(0,7/16),(0,1),(3/16,25/16),(0,2)] ∧
    (∀ t : ℚ, catmullSpec 0 0 0 0 t = 0) ∧
    ((3:ℚ)/16 ≠ 0) := by
  refine ⟨?_, catmullSpec_zero_channel, by norm_num⟩
  simp [interpolate, spans, catmullPoint, List.range_succ, List.getLastI]
  norm_num

/-- C7: for at least two control points and at least one segment, the
interpolated polyline starts exactly at the first control point and ends
exactly at the last control point. -/
theorem c7_interpolate_endpoints (points : List Pt) (segments : Nat)
    (hlen : 2 ≤ points.length) (hseg : 1 ≤ segments) :
    (interpolate points segments).head? = points.head? ∧
    (interpolate points segments).getLast? = points.getLast? := by
  obtain ⟨k, rfl⟩ : ∃ k, segments = k + 1 :=
    ⟨segments - 1, (Nat.succ_pred_eq_of_pos hseg).symm⟩
  rcases points with _ | ⟨a, _ | ⟨b, _ | ⟨c, rest⟩⟩⟩
  · simp at hlen
  · simp at hlen
  · -- two control points: linear branch
    have hk : ((k : ℚ) + 1) ≠ 0 := by positivity
    constructor
    · rw [interpolate, if_neg (by norm_num), if_pos (by norm_num)]
      rw [List.range_succ_eq_map]
      simp [List.getLastI]
    · rw [interpolate, if_neg (by norm_num), if_pos (by norm_num)]
      rw [List.range_succ, List.map_append]
      simp only [List.map_singleton]
      rw [List.getLast?_concat]
      simp only [List.getLastI, List.headI, List.getLast?_cons_cons, List.getLast?_singleton]
      rw [Option.some.injEq, Prod.mk.injEq]
      push_cast
      refine ⟨?_, ?_⟩ <;> field_simp
  · -- at least three control points
    constructor
    · rw [interpolate, if_neg (by norm_num), if_neg (by simp)]
      have hpad : (a :: b :: c :: rest).headI :: (a :: b :: c :: rest ++ [(a :: b :: c :: rest).getLastI])
          = a :: a :: b :: c :: (rest ++ [(a :: b :: c :: rest).getLastI]) := by simp
      rw [hpad, spans]
      rw [List.append_assoc, head?_append_left _ _ (by simp [List.range_succ_eq_map])]
      rw [List.range_succ_eq_map]
      simp only [List.map_cons, List.head?_cons, Nat.cast_zero, zero_div]
      rw [catmullPoint_at_zero]
    · rw [interpolate, if_neg (by norm_num), if_neg (by simp)]
      rw [List.getLast?_concat, getLast?_eq_some_getLastI _ (by simp)]

/-- Closed instance of `c7_interpolate_endpoints` on the control points
`(0,0), (1,1)` with one segment. -/
theorem c7_interpolate_endpoints_witness :
    (2 ≤ ([((0:ℚ),(0:ℚ)), (1,1)] : List Pt).length ∧ 1 ≤ 1) ∧
    ((interpolate [((0:ℚ),(0:ℚ)), (1,1)] 1).head? = ([((0:ℚ),(0:ℚ)), (1,1)] : List Pt).head? ∧
     (interpolate [((0:ℚ),(0:ℚ)), (1,1)] 1).getLast? = ([((0:ℚ),(0:ℚ)), (1,1)] : List Pt).getLast?) :=
  ⟨⟨by norm_num, le_refl 1⟩, c7_interpolate_endpoints _ 1 (by norm_num) (le_refl 1)⟩
theorem pnum_nonneg (p a b : Pt) : 0 ≤ pnum p a b := abs_nonneg _
theorem pden2_nonneg (a b : Pt) : 0 ≤ pden2 a b := by simp only [pden2]; positivity
theorem pnum_left (a b : Pt) : pnum a a b = 0 := by
  simp only [pnum, abs_eq_zero]; ring
theorem pnum_right (a b : Pt) : pnum b a b = 0 := by
  simp only [pnum, abs_eq_zero]; ring

theorem scanAux_append (a b : Pt) (l₁ l₂ : List Pt) :
    ∀ (i : Nat) (best : ℚ × Nat),
      scanAux a b (l₁ ++ l₂) i best = scanAux a b l₂ (i + l₁.length) (scanAux a b l₁ i best) := by
  induction l₁ with
  | nil => intro i best; simp [scanAux]
  | cons q qs ih =>
      intro i best
      simp only [List.cons_append, scanAux, List.length_cons, List.append_eq]
      rw [ih]
      congr 1
      omega

theorem scanAux_const (a b : Pt) :
    ∀ (l : List Pt) (i : Nat) (best : ℚ × Nat),
      (∀ q ∈ l, pnum q a b ≤ best.1) → scanAux a b l i best = best := by
  intro l
  induction l with
  | nil => intro i best _; rfl
  | cons q qs ih =>
      intro i best h
      have hq : ¬ (pnum q a b > best.1) := not_lt.mpr (h q (by simp))
      simp only [scanAux, if_neg hq]
      exact ih (i + 1) best (fun r hr => h r (by simp [hr]))

theorem scanAux_fst_lt (a b : Pt) (m : ℚ) :
    ∀ (l : List Pt) (i : Nat) (best : ℚ × Nat),
      best.1 < m → (∀ q ∈ l, pnum q a b < m) → (scanAux a b l i best).1 < m := by
  intro l
  induction l with
  | nil => intro i best hb _; exact hb
  | cons q qs ih =>
      intro i best hb h
      simp only [scanAux]
      by_cases hq : pnum q a b > best.1
      · rw [if_pos hq]
        exact ih (i + 1) _ (h q (by simp)) (fun r hr => h r (by simp [hr]))
      · rw [if_neg hq]
        exact ih (i + 1) best hb (fun r hr => h r (by simp [hr]))

theorem scanAux_spec (a b : Pt) :
    ∀ (l : List Pt) (i : Nat) (best : ℚ × Nat),
      (scanAux a b l i best = best ∧ ∀ q ∈ l, pnum q a b ≤ best.1)
      ∨ (∃ k, k < l.length ∧
          scanAux a b l i best = (pnum (l.getD k default) a b, i + k) ∧
          best.1 < pnum (l.getD k default) a b ∧
          (∀ j, j < k → pnum (l.getD j default) a b < pnum (l.getD k default) a b) ∧
          (∀ j, j < l.length → pnum (l.getD j default) a b ≤ pnum (l.getD k default) a b)) := by
  intro l
  induction l with
  | nil => intro i best; exact Or.inl ⟨rfl, by simp⟩
  | cons q qs ih =>
      intro i best
      by_cases hq : pnum q a b > best.1
      · rcases ih (i + 1) (pnum q a b, i) with ⟨heq, hub⟩ | ⟨k, hk, heq, hgt, hfirst, hub⟩
        · refine Or.inr ⟨0, by simp, ?_, ?_, ?_, ?_⟩
          · simp only [scanAux, if_pos hq, heq, List.getD_cons_zero, Nat.add_zero]
          · simpa using hq
          · intro j hj; omega
          · intro j hj
            cases j with
            | zero => simp
            | succ j' =>
                have hj' : j' < qs.length := by simpa using hj
                simp only [List.getD_cons_succ]
                rw [List.getD_eq_getElem _ _ hj']
                exact hub _ (List.getElem_mem hj')
        · refine Or.inr ⟨k + 1, by simpa using hk, ?_, ?_, ?_, ?_⟩
          · simp only [scanAux, if_pos hq, heq, List.getD_cons_succ]
            congr 1
            omega
          · simp only [List.getD_cons_succ]
            exact lt_trans hq hgt
          · intro j hj
            cases j with
            | zero => simpa [List.getD_cons_zero, List.getD_cons_succ] using hgt
            | succ j' => simpa [List.getD_cons_succ] using hfirst j' (by omega)
          · intro j hj
            cases j with
            | zero => simpa [List.getD_cons_zero, List.getD_cons_succ] using le_of_lt hgt
            | succ j' => simpa [List.getD_cons_succ] using hub j' (by simpa using hj)
      · have hq' : pnum q a b ≤ best.1 := not_lt.mp hq
        rcases ih (i + 1) best with ⟨heq, hub⟩ | ⟨k, hk, heq, hgt, hfirst, hub⟩
        · refine Or.inl ⟨by simp only [scanAux, if_neg hq, heq], ?_⟩
          intro r hr
          rcases List.mem_cons.mp hr with rfl | hr'
          · exact hq'
          · exact hub r hr'
        · refine Or.inr ⟨k + 1, by simpa using hk, ?_, ?_, ?_, ?_⟩
          · simp only [scanAux, if_neg hq, heq, List.getD_cons_succ]
            congr 1
            omega
          · simp only [List.getD_cons_succ]; exact hgt
          · intro j hj
            cases j with
            | zero => simpa [List.getD_cons_zero, List.getD_cons_succ] using lt_of_le_of_lt hq' hgt
            | succ j' => simpa [List.getD_cons_succ] using hfirst j' (by omega)
          · intro j hj
            cases j with
            | zero => simpa [List.getD_cons_zero, List.getD_cons_succ] using le_of_lt (lt_of_le_of_lt hq' hgt)
            | succ j' => simpa [List.getD_cons_succ] using hub j' (by simpa using hj)

theorem getLastI_eq_of_getLast? {α : Type} [Inhabited α] {l : List α} {x : α}
    (h : l.getLast? = some x) : l.getLastI = x := by
  rw [List.getLastI_eq_getLast?, h]

theorem head?_dropLast {α : Type} (l : List α) (h : 2 ≤ l.length) :
    l.dropLast.head? = l.head? := by
  match l, h with | a :: b :: t, _ => simp

theorem head?_drop_getD (l : List Pt) (n : Nat) (h : n < l.length) :
    (l.drop n).head? = some (l.getD n default) := by
  rw [List.head?_drop, List.getElem?_eq_getElem h, List.getD_eq_getElem _ _ h]

theorem getLast?_drop_of_lt {α : Type} (l : List α) (n : Nat) (h : n < l.length) :
    (l.drop n).getLast? = l.getLast? := by
  conv_rhs => rw [← List.take_append_drop n l]
  rw [List.getLast?_append_of_ne_nil]
  intro he
  rw [List.drop_eq_nil_iff] at he
  omega

theorem take_succ_getD (l : List Pt) (n : Nat) (h : n < l.length) :
    l.take (n+1) = l.take n ++ [l.getD n default] := by
  rw [List.take_succ, List.getElem?_eq_getElem h, List.getD_eq_getElem _ _ h]
  rfl

theorem getLast?_take_succ (l : List Pt) (n : Nat) (h : n < l.length) :
    (l.take (n+1)).getLast? = some (l.getD n default) := by
  rw [take_succ_getD l n h, List.getLast?_concat]

theorem head?_take_succ {α : Type} (l : List α) (n : Nat) :
    (l.take (n+1)).head? = l.head? := by
  cases l <;> simp

theorem eq_dropLast_concat {α : Type} {l : List α} {c : α}
    (h : l.getLast? = some c) : l = l.dropLast ++ [c] := by
  have hne : l ≠ [] := by intro he; rw [he] at h; simp at h
  have h2 := List.dropLast_append_getLast hne
  rw [List.getLast?_eq_getLast _ hne] at h
  rw [Option.some.injEq] at h
  rw [h] at h2
  exact h2.symm

theorem sublist_of_concat_sublist {α : Type} {l₁ l₂ : List α} {c : α}
    (h : l₁ ++ [c] <+ l₂ ++ [c]) : l₁ <+ l₂ := by
  have hr := h.reverse
  simp only [List.reverse_append, List.reverse_singleton, List.singleton_append] at hr
  have := List.cons_sublist_cons.mp hr
  have h2 := this.reverse
  simpa using h2

theorem dropLast_sublist_of_last {α : Type} {l m : List α} {c : α}
    (hl : l.getLast? = some c) (hs : l <+ m ++ [c]) : l.dropLast <+ m := by
  apply sublist_of_concat_sublist (c := c)
  rw [← eq_dropLast_concat hl]
  exact hs

theorem cons_head?_tail {α : Type} {l : List α} {x : α} (h : l.head? = some x) :
    l = x :: l.tail := by
  cases l with
  | nil => simp at h
  | cons a t =>
      simp only [List.head?_cons, Option.some.injEq] at h
      subst h
      rfl

theorem interior_length (ps : List Pt) : ((ps.drop 1).dropLast).length = ps.length - 2 := by
  simp only [List.length_dropLast, List.length_drop]
  omega

theorem interior_getD (ps : List Pt) (k : Nat) (hk : k < ps.length - 2) :
    ((ps.drop 1).dropLast).getD k default = ps.getD (k+1) default := by
  have h1 : k < ((ps.drop 1).dropLast).length := by rw [interior_length]; exact hk
  have h2 : k + 1 < ps.length := by omega
  rw [List.getD_eq_getElem _ _ h1, List.getD_eq_getElem _ _ h2]
  rw [List.getElem_dropLast, List.getElem_drop]
  congr 1
  omega

theorem getD_zero_eq_headI (ps : List Pt) (h : ps ≠ []) : ps.getD 0 default = ps.headI := by
  cases ps with
  | nil => simp at h
  | cons a t => simp [List.getD_cons_zero]

theorem getD_last_eq_getLastI (ps : List Pt) (h : ps ≠ []) :
    ps.getD (ps.length - 1) default = ps.getLastI := by
  have hl : ps.length - 1 < ps.length := by
    cases ps with
    | nil => simp at h
    | cons a t => simp
  rw [List.getD_eq_getElem _ _ hl, ← List.getLast_eq_getElem]
  have := getLast?_eq_some_getLastI ps h
  rw [List.getLast?_eq_getLast _ h, Option.some.injEq] at this
  exact this

theorem scanAux_ub (a b : Pt) (l : List Pt) (i : Nat) (best : ℚ × Nat) :
    ∀ q ∈ l, pnum q a b ≤ (scanAux a b l i best).1 := by
  rcases scanAux_spec a b l i best with ⟨heq, hub⟩ | ⟨k, hk, heq, _, _, hub⟩
  · rw [heq]; exact hub
  · rw [heq]
    intro q hq
    obtain ⟨j, hj, rfl⟩ := List.mem_iff_getElem.mp hq
    have h2 := hub j hj
    rwa [List.getD_eq_getElem _ _ hj] at h2

theorem scanRes_fst_nonneg (ps : List Pt) : 0 ≤ (scanRes ps).1 := by
  rw [scanRes]
  split
  · norm_num
  · rcases scanAux_spec ps.headI ps.getLastI ((ps.drop 1).dropLast) 1 (0, 0) with
      ⟨heq, _⟩ | ⟨k, _, heq, hgt, _, _⟩
    · rw [heq]
    · rw [heq]
      exact le_of_lt hgt

theorem scanRes_pos_facts (ps : List Pt) (hlen : 3 ≤ ps.length)
    (hpos : 0 < (scanRes ps).1) :
    pden2 ps.headI ps.getLastI ≠ 0 ∧
    1 ≤ (scanRes ps).2 ∧ (scanRes ps).2 ≤ ps.length - 2 ∧
    pnum (ps.getD (scanRes ps).2 default) ps.headI ps.getLastI = (scanRes ps).1 ∧
    (∀ j, j < (scanRes ps).2 →
      pnum (ps.getD j default) ps.headI ps.getLastI < (scanRes ps).1) ∧
    (∀ j, j < ps.length →
      pnum (ps.getD j default) ps.headI ps.getLastI ≤ (scanRes ps).1) := by
  have hne : pden2 ps.headI ps.getLastI ≠ 0 := by
    intro hd
    rw [scanRes, if_pos hd] at hpos
    norm_num at hpos
  have hres : scanRes ps = scanAux ps.headI ps.getLastI ((ps.drop 1).dropLast) 1 (0, 0) := by
    rw [scanRes, if_neg hne]
  have hnil : ps ≠ [] := by intro he; rw [he] at hlen; simp at hlen
  rcases scanAux_spec ps.headI ps.getLastI ((ps.drop 1).dropLast) 1 (0, 0) with
    ⟨heq, _⟩ | ⟨k, hk, heq, _, hfirst, hub⟩
  · rw [hres, heq] at hpos
    norm_num at hpos
  · rw [interior_length] at hk
    have hsnd : (scanRes ps).2 = k + 1 := by
      rw [hres, heq]
      show 1 + k = k + 1
      omega
    have hfst : (scanRes ps).1 = pnum (ps.getD (k+1) default) ps.headI ps.getLastI := by
      rw [hres, heq, ← interior_getD ps k hk]
    refine ⟨hne, by omega, by omega, ?_, ?_, ?_⟩
    · rw [hsnd, hfst]
    · intro j hj
      rw [hsnd] at hj
      rcases Nat.eq_zero_or_pos j with rfl | hjpos
      · rw [getD_zero_eq_headI ps hnil, pnum_left, hfst]
        rw [← interior_getD ps k hk] at hfst ⊢
        rw [hfst] at hpos
        exact hpos
      · obtain ⟨j', rfl⟩ : ∃ j', j = j' + 1 := ⟨j - 1, by omega⟩
        have hj' : j' < ps.length - 2 := by omega
        rw [hfst, ← interior_getD ps k hk, ← interior_getD ps j' hj']
        exact hfirst j' (by omega)
    · intro j hj
      rcases Nat.eq_zero_or_pos j with rfl | hjpos
      · rw [getD_zero_eq_headI ps hnil, pnum_left]
        exact le_of_lt hpos
      · rcases Nat.lt_or_ge j (ps.length - 1) with hjlt | hjge
        · obtain ⟨j', rfl⟩ : ∃ j', j = j' + 1 := ⟨j - 1, by omega⟩
          have hj' : j' < ps.length - 2 := by omega
          rw [hfst, ← interior_getD ps k hk, ← interior_getD ps j' hj']
          exact hub j' (by rw [interior_length]; omega)
        · have hj1 : j = ps.length - 1 := by omega
          rw [hj1, getD_last_eq_getLastI ps hnil, pnum_right]
          exact le_of_lt hpos

theorem scanRes_ub_mem (ps : List Pt) (hne : pden2 ps.headI ps.getLastI ≠ 0) :
    ∀ q ∈ (ps.drop 1).dropLast, pnum q ps.headI ps.getLastI ≤ (scanRes ps).1 := by
  rw [scanRes, if_neg hne]
  exact scanAux_ub _ _ _ _ _

theorem simplifyF_short (fuel : Nat) (ps : List Pt) (tol : ℚ) (h : ps.length < 3) :
    simplifyF fuel ps tol = ps := by
  cases fuel with
  | zero => rfl
  | succ f => rw [simplifyF, if_pos h]

theorem scanRes_split_pos (ps : List Pt) (tol : ℚ) (htol : 0 ≤ tol)
    (hc : (scanRes ps).1 ^ 2 > tol ^ 2 * pden2 ps.headI ps.getLastI) :
    0 < (scanRes ps).1 := by
  have h0 : 0 ≤ (scanRes ps).1 := scanRes_fst_nonneg ps
  have hd : 0 ≤ pden2 ps.headI ps.getLastI := pden2_nonneg _ _
  nlinarith [sq_nonneg tol, htol]

theorem simplifyF_congr (tol : ℚ) (htol : 0 ≤ tol) :
    ∀ (n : Nat) (ps : List Pt) (fuel fuel' : Nat),
      ps.length ≤ n → ps.length ≤ fuel → ps.length ≤ fuel' →
      simplifyF fuel ps tol = simplifyF fuel' ps tol := by
  intro n
  induction n with
  | zero =>
      intro ps fuel fuel' hn _ _
      have : ps = [] := List.length_eq_zero.mp (Nat.le_zero.mp hn)
      subst this
      rw [simplifyF_short _ _ _ (by simp), simplifyF_short _ _ _ (by simp)]
  | succ n ih =>
      intro ps fuel fuel' hn hf hf'
      rcases Nat.lt_or_ge ps.length 3 with hlen | hlen
      · rw [simplifyF_short _ _ _ hlen, simplifyF_short _ _ _ hlen]
      · obtain ⟨f, rfl⟩ : ∃ f, fuel = f + 1 := ⟨fuel - 1, by omega⟩
        obtain ⟨f', rfl⟩ : ∃ f', fuel' = f' + 1 := ⟨fuel' - 1, by omega⟩
        rw [simplifyF, simplifyF]
        rw [if_neg (show ¬ ps.length < 3 by omega)]
        rw [if_neg (show ¬ ps.length < 3 by omega)]
        by_cases hc : tol < 0 ∨ (scanRes ps).1 ^ 2 > tol ^ 2 * pden2 ps.headI ps.getLastI
        · have hc2 : (scanRes ps).1 ^ 2 > tol ^ 2 * pden2 ps.headI ps.getLastI := by
            rcases hc with h | h
            · exact absurd h (not_lt.mpr htol)
            · exact h
          have hpos := scanRes_split_pos ps tol htol hc2
          obtain ⟨-, hidx1, hidx2, -, -, -⟩ := scanRes_pos_facts ps hlen hpos
          simp only [if_pos hc]
          have hlt : (scanRes ps).2 + 1 ≤ ps.length - 1 := by omega
          have htk : (ps.take ((scanRes ps).2 + 1)).length ≤ n := by
            rw [List.length_take]
            omega
          have hdr : (ps.drop (scanRes ps).2).length ≤ n := by
            rw [List.length_drop]
            omega
          rw [ih (ps.take ((scanRes ps).2 + 1)) f f' htk (by rw [List.length_take]; omega)
            (by rw [List.length_take]; omega)]
          rw [ih (ps.drop (scanRes ps).2) f f' hdr (by rw [List.length_drop]; omega)
            (by rw [List.length_drop]; omega)]
        · simp only [if_neg hc]

theorem simplifyF_eq_simplify (tol : ℚ) (htol : 0 ≤ tol) (ps : List Pt) (fuel : Nat)
    (hf : ps.length ≤ fuel) : simplifyF fuel ps tol = simplify ps tol :=
  simplifyF_congr tol htol ps.length ps fuel ps.length le_rfl hf le_rfl

theorem simplify_short (ps : List Pt) (tol : ℚ) (h : ps.length < 3) :
    simplify ps tol = ps :=
  simplifyF_short _ _ _ h

theorem simplify_split (ps : List Pt) (tol : ℚ) (htol : 0 ≤ tol) (hlen : 3 ≤ ps.length)
    (hc : (scanRes ps).1 ^ 2 > tol ^ 2 * pden2 ps.headI ps.getLastI) :
    simplify ps tol =
      (simplify (ps.take ((scanRes ps).2 + 1)) tol).dropLast
        ++ simplify (ps.drop (scanRes ps).2) tol := by
  have hpos := scanRes_split_pos ps tol htol hc
  obtain ⟨-, hidx1, hidx2, -, -, -⟩ := scanRes_pos_facts ps hlen hpos
  obtain ⟨f, hfe⟩ : ∃ f, ps.length = f + 1 := ⟨ps.length - 1, by omega⟩
  rw [simplify, hfe, simplifyF, if_neg (by omega), if_pos (Or.inr hc)]
  rw [simplifyF_eq_simplify tol htol _ f (by rw [List.length_take]; omega)]
  rw [simplifyF_eq_simplify tol htol _ f (by rw [List.length_drop]; omega)]

theorem simplify_nosplit (ps : List Pt) (tol : ℚ) (htol : 0 ≤ tol) (hlen : 3 ≤ ps.length)
    (hc : ¬ ((scanRes ps).1 ^ 2 > tol ^ 2 * pden2 ps.headI ps.getLastI)) :
    simplify ps tol = [ps.headI, ps.getLastI] := by
  obtain ⟨f, hfe⟩ : ∃ f, ps.length = f + 1 := ⟨ps.length - 1, by omega⟩
  rw [simplify, hfe, simplifyF, if_neg (by omega)]
  rw [if_neg]
  push_neg
  exact ⟨htol, not_lt.mp hc⟩

theorem head?_eq_some_headI {α : Type} [Inhabited α] (l : List α) (h : l ≠ []) :
    l.head? = some l.headI := by
  cases l with
  | nil => simp at h
  | cons a t => rfl

theorem interior_decomp (ps : List Pt) (h : 2 ≤ ps.length) :
    ps = ps.headI :: ((ps.drop 1).dropLast ++ [ps.getLastI]) := by
  rcases ps with _ | ⟨x, xs⟩
  · simp at h
  · have hxs : xs ≠ [] := by
      intro he
      subst he
      simp at h
    have h3 : (x :: xs).getLastI = xs.getLast hxs := by
      have h4 := getLast?_eq_some_getLastI (x :: xs) (by simp)
      have h5 : (x :: xs).getLast? = xs.getLast? := by
        have : (x :: xs) = [x] ++ xs := rfl
        rw [this, List.getLast?_append_of_ne_nil _ hxs]
      rw [h5, List.getLast?_eq_getLast _ hxs, Option.some.injEq] at h4
      exact h4.symm
    show x :: xs = x :: (xs.dropLast ++ [(x :: xs).getLastI])
    rw [h3, List.dropLast_append_getLast hxs]

theorem simplify_basic (tol : ℚ) (htol : 0 ≤ tol) :
    ∀ (n : Nat) (ps : List Pt), ps.length ≤ n →
      (simplify ps tol).head? = ps.head? ∧
      (simplify ps tol).getLast? = ps.getLast? ∧
      (simplify ps tol) <+ ps ∧
      (2 ≤ ps.length → 2 ≤ (simplify ps tol).length) := by
  intro n
  induction n with
  | zero =>
      intro ps hn
      have he : ps = [] := List.length_eq_zero.mp (Nat.le_zero.mp hn)
      subst he
      rw [simplify_short _ _ (by simp)]
      exact ⟨rfl, rfl, List.Sublist.refl _, by simp⟩
  | succ n ih =>
      intro ps hn
      rcases Nat.lt_or_ge ps.length 3 with hlen | hlen
      · rw [simplify_short _ _ hlen]
        exact ⟨rfl, rfl, List.Sublist.refl _, fun h => h⟩
      · have hnil : ps ≠ [] := by
          intro he
          rw [he] at hlen
          simp at hlen
        by_cases hc : (scanRes ps).1 ^ 2 > tol ^ 2 * pden2 ps.headI ps.getLastI
        · -- split case
          have hpos := scanRes_split_pos ps tol htol hc
          obtain ⟨hd2, hidx1, hidx2, hpk, hfirst, hub⟩ := scanRes_pos_facts ps hlen hpos
          rw [simplify_split ps tol htol hlen hc]
          have hAlen : (ps.take ((scanRes ps).2 + 1)).length = (scanRes ps).2 + 1 := by
            rw [List.length_take]
            omega
          have hBlen : (ps.drop (scanRes ps).2).length = ps.length - (scanRes ps).2 := by
            rw [List.length_drop]
          obtain ⟨ihA1, ihA2, ihA3, ihA4⟩ := ih (ps.take ((scanRes ps).2 + 1)) (by omega)
          obtain ⟨ihB1, ihB2, ihB3, ihB4⟩ := ih (ps.drop (scanRes ps).2) (by omega)
          have hsAlen : 2 ≤ (simplify (ps.take ((scanRes ps).2 + 1)) tol).length :=
            ihA4 (by omega)
          have hsBlen : 2 ≤ (simplify (ps.drop (scanRes ps).2) tol).length :=
            ihB4 (by omega)
          have hsBne : simplify (ps.drop (scanRes ps).2) tol ≠ [] := by
            intro he
            rw [he] at hsBlen
            simp at hsBlen
          have hdlne : (simplify (ps.take ((scanRes ps).2 + 1)) tol).dropLast ≠ [] := by
            intro he
            have hlc := congrArg List.length he
            rw [List.length_dropLast] at hlc
            simp at hlc
            omega
          refine ⟨?_, ?_, ?_, ?_⟩
          · rw [head?_append_left _ _ hdlne, head?_dropLast _ hsAlen, ihA1, head?_take_succ]
          · rw [List.getLast?_append_of_ne_nil _ hsBne, ihB2,
              getLast?_drop_of_lt _ _ (by omega)]
          · have hlastA : (simplify (ps.take ((scanRes ps).2 + 1)) tol).getLast?
                = some (ps.getD (scanRes ps).2 default) := by
              rw [ihA2, getLast?_take_succ _ _ (by omega)]
            have hAeq : ps.take ((scanRes ps).2 + 1)
                = ps.take (scanRes ps).2 ++ [ps.getD (scanRes ps).2 default] :=
              take_succ_getD _ _ (by omega)
            have hsub1 : (simplify (ps.take ((scanRes ps).2 + 1)) tol).dropLast
                <+ ps.take (scanRes ps).2 := by
              apply dropLast_sublist_of_last hlastA
              rw [← hAeq]
              exact ihA3
            have hfin := hsub1.append ihB3
            rw [List.take_append_drop] at hfin
            exact hfin
          · intro _
            rw [List.length_append]
            omega
        · rw [simplify_nosplit ps tol htol hlen hc]
          refine ⟨?_, ?_, ?_, by intro _; simp⟩
          · rw [head?_eq_some_headI ps hnil]
            rfl
          · rw [getLast?_eq_some_getLastI ps hnil]
            rfl
          · conv_rhs => rw [interior_decomp ps (by omega)]
            exact List.Sublist.cons₂ _ (List.sublist_append_right _ _)

theorem simplify_head? (ps : List Pt) (tol : ℚ) (htol : 0 ≤ tol) :
    (simplify ps tol).head? = ps.head? :=
  (simplify_basic tol htol ps.length ps le_rfl).1

theorem simplify_getLast? (ps : List Pt) (tol : ℚ) (htol : 0 ≤ tol) :
    (simplify ps tol).getLast? = ps.getLast? :=
  (simplify_basic tol htol ps.length ps le_rfl).2.1

theorem simplify_sublist (ps : List Pt) (tol : ℚ) (htol : 0 ≤ tol) :
    simplify ps tol <+ ps :=
  (simplify_basic tol htol ps.length ps le_rfl).2.2.1

theorem simplify_len2 (ps : List Pt) (tol : ℚ) (htol : 0 ≤ tol) (h : 2 ≤ ps.length) :
    2 ≤ (simplify ps tol).length :=
  (simplify_basic tol htol ps.length ps le_rfl).2.2.2 h

theorem dropLast_cons_ne {α : Type} (s : α) (w : List α) (h : w ≠ []) :
    (s :: w).dropLast = s :: w.dropLast := by
  match w, h with | q :: t, _ => simp

theorem mem_take_pnum_lt (ps : List Pt) (a b : Pt) (m : ℚ) (k : Nat)
    (hf : ∀ j, j < k → pnum (ps.getD j default) a b < m) :
    ∀ q ∈ ps.take k, pnum q a b < m := by
  intro q hq
  obtain ⟨j, hj, rfl⟩ := List.mem_iff_getElem.mp hq
  have hjk : j < k := by
    have := hj
    rw [List.length_take] at this
    omega
  have hjp : j < ps.length := by
    have := hj
    rw [List.length_take] at this
    omega
  have h2 := hf j hjk
  rw [List.getD_eq_getElem _ _ hjp] at h2
  rw [List.getElem_take]
  exact h2

theorem mem_drop_pnum_le (ps : List Pt) (a b : Pt) (m : ℚ) (k : Nat)
    (hub : ∀ j, j < ps.length → pnum (ps.getD j default) a b ≤ m) :
    ∀ q ∈ ps.drop k, pnum q a b ≤ m := by
  intro q hq
  obtain ⟨j, hj, rfl⟩ := List.mem_iff_getElem.mp hq
  have hjp : k + j < ps.length := by
    have := hj
    rw [List.length_drop] at this
    omega
  have h2 := hub (k + j) hjp
  rw [List.getD_eq_getElem _ _ hjp] at h2
  rw [List.getElem_drop]
  exact h2

theorem simplify_idem_aux (tol : ℚ) (htol : 0 ≤ tol) :
    ∀ (n : Nat) (ps : List Pt), ps.length ≤ n →
      simplify (simplify ps tol) tol = simplify ps tol := by
  intro n
  induction n with
  | zero =>
      intro ps hn
      have he : ps = [] := List.length_eq_zero.mp (Nat.le_zero.mp hn)
      subst he
      rw [simplify_short [] tol (by decide)]
      exact simplify_short [] tol (by decide)
  | succ n ih =>
      intro ps hn
      rcases Nat.lt_or_ge ps.length 3 with hlen | hlen
      · rw [simplify_short ps tol hlen]
        exact simplify_short ps tol hlen
      · have hnil : ps ≠ [] := by
          intro he
          rw [he] at hlen
          simp at hlen
        by_cases hc : (scanRes ps).1 ^ 2 > tol ^ 2 * pden2 ps.headI ps.getLastI
        · -- split case
          have hpos := scanRes_split_pos ps tol htol hc
          obtain ⟨hd2, hidx1, hidx2, hpk, hfirst, hub⟩ := scanRes_pos_facts ps hlen hpos
          have hidxlt : (scanRes ps).2 < ps.length := by omega
          rw [simplify_split ps tol htol hlen hc]
          -- abbreviate the two recursive results
          generalize hsA : simplify (ps.take ((scanRes ps).2 + 1)) tol = sA
          generalize hsB : simplify (ps.drop ((scanRes ps).2)) tol = sB
          -- lengths of the sub-results
          have hsAlen : 2 ≤ sA.length := by
            rw [← hsA]
            exact simplify_len2 _ tol htol (by rw [List.length_take]; omega)
          have hsBlen : 2 ≤ sB.length := by
            rw [← hsB]
            exact simplify_len2 _ tol htol (by rw [List.length_drop]; omega)
          -- endpoints of the sub-results
          have hlastA : sA.getLast? = some (ps.getD (scanRes ps).2 default) := by
            rw [← hsA, simplify_getLast? _ tol htol, getLast?_take_succ _ _ hidxlt]
          have hheadA : sA.head? = some ps.headI := by
            rw [← hsA, simplify_head? _ tol htol, head?_take_succ, head?_eq_some_headI ps hnil]
          have hheadB : sB.head? = some (ps.getD (scanRes ps).2 default) := by
            rw [← hsB, simplify_head? _ tol htol, head?_drop_getD _ _ hidxlt]
          have hlastB : sB.getLast? = some ps.getLastI := by
            rw [← hsB, simplify_getLast? _ tol htol, getLast?_drop_of_lt _ _ hidxlt,
              getLast?_eq_some_getLastI ps hnil]
          -- decompose the sub-results
          have hheadAd : sA.dropLast.head? = some ps.headI := by
            rw [head?_dropLast _ hsAlen, hheadA]
          obtain ⟨u, hu⟩ : ∃ u, sA.dropLast = ps.headI :: u :=
            ⟨sA.dropLast.tail, cons_head?_tail hheadAd⟩
          obtain ⟨w, hw⟩ : ∃ w, sB = ps.getD (scanRes ps).2 default :: w :=
            ⟨sB.tail, cons_head?_tail hheadB⟩
          have hwne : w ≠ [] := by
            intro he
            rw [he] at hw
            rw [hw] at hsBlen
            simp at hsBlen
          -- sublist facts
          have hAeq : ps.take ((scanRes ps).2 + 1)
              = ps.take (scanRes ps).2 ++ [ps.getD (scanRes ps).2 default] :=
            take_succ_getD _ _ hidxlt
          have hsubA : sA.dropLast <+ ps.take (scanRes ps).2 := by
            apply dropLast_sublist_of_last hlastA
            rw [← hAeq, ← hsA]
            exact simplify_sublist _ tol htol
          have hsubB : sB <+ ps.drop (scanRes ps).2 := by
            rw [← hsB]
            exact simplify_sublist _ tol htol
          -- pnum bounds on the parts
          have hu_lt : ∀ q ∈ u, pnum q ps.headI ps.getLastI < (scanRes ps).1 := by
            intro q hq
            have hq2 : q ∈ sA.dropLast := by
              rw [hu]
              exact List.mem_cons_of_mem _ hq
            exact mem_take_pnum_lt ps _ _ _ _ hfirst q (hsubA.subset hq2)
          have hsB_le : ∀ q ∈ sB, pnum q ps.headI ps.getLastI ≤ (scanRes ps).1 := by
            intro q hq
            exact mem_drop_pnum_le ps _ _ _ _ hub q (hsubB.subset hq)
          -- shape of the doubled list
          have hOshape : sA.dropLast ++ sB
              = ps.headI :: (u ++ (ps.getD (scanRes ps).2 default :: w)) := by
            rw [hu, hw]
            rfl
          have hOheadI : (sA.dropLast ++ sB).headI = ps.headI := by
            rw [hOshape]
            rfl
          have hOlast? : (sA.dropLast ++ sB).getLast? = some ps.getLastI := by
            rw [List.getLast?_append_of_ne_nil _ (by rw [hw]; exact List.cons_ne_nil _ _), hlastB]
          have hOlastI : (sA.dropLast ++ sB).getLastI = ps.getLastI :=
            getLastI_eq_of_getLast? hOlast?
          have hOlen : 3 ≤ (sA.dropLast ++ sB).length := by
            rw [List.length_append, hu]
            simp only [List.length_cons]
            omega
          -- the interior of the doubled list
          have hOint : ((sA.dropLast ++ sB).drop 1).dropLast
              = u ++ (ps.getD (scanRes ps).2 default :: w.dropLast) := by
            rw [hOshape]
            show (u ++ (ps.getD (scanRes ps).2 default :: w)).dropLast = _
            rw [List.dropLast_append_of_ne_nil _ (by simp), dropLast_cons_ne _ _ hwne]
          -- rescan of the doubled list
          have hscanO : scanRes (sA.dropLast ++ sB) = ((scanRes ps).1, 1 + u.length) := by
            rw [scanRes, hOheadI, hOlastI, if_neg hd2, hOint]
            rw [scanAux_append]
            have hb1 : (scanAux ps.headI ps.getLastI u 1 (0, 0)).1 < (scanRes ps).1 :=
              scanAux_fst_lt _ _ _ u 1 (0, 0) hpos hu_lt
            rw [scanAux]
            rw [if_pos (by rw [hpk]; exact hb1)]
            have hside : ∀ q ∈ w.dropLast, pnum q ps.headI ps.getLastI
                ≤ (pnum (ps.getD (scanRes ps).2 default) ps.headI ps.getLastI,
                    1 + u.length).1 := by
              intro q hq
              show pnum q ps.headI ps.getLastI ≤ pnum (ps.getD (scanRes ps).2 default) _ _
              rw [hpk]
              apply hsB_le
              rw [hw]
              exact List.mem_cons_of_mem _ ((List.dropLast_sublist w).subset hq)
            rw [scanAux_const _ _ _ _ _ hside, hpk]
          -- the doubled list splits at the same point
          have hcondO : (scanRes (sA.dropLast ++ sB)).1 ^ 2
              > tol ^ 2 * pden2 (sA.dropLast ++ sB).headI (sA.dropLast ++ sB).getLastI := by
            rw [hscanO, hOheadI, hOlastI]
            exact hc
          rw [simplify_split _ tol htol hOlen hcondO]
          -- the two halves of the rescan split
          have hulen : sA.dropLast.length = u.length + 1 := by rw [hu]; rfl
          have hOtake : (sA.dropLast ++ sB).take ((scanRes (sA.dropLast ++ sB)).2 + 1) = sA := by
            rw [hscanO]
            show (sA.dropLast ++ sB).take (1 + u.length + 1) = sA
            rw [List.take_append_eq_append_take]
            rw [List.take_of_length_le (by omega)]
            rw [hulen]
            have h1u : 1 + u.length + 1 - (u.length + 1) = 1 := by omega
            rw [h1u, hw]
            rw [List.take_succ_cons, List.take_zero]
            rw [← eq_dropLast_concat hlastA]
          have hOdrop : (sA.dropLast ++ sB).drop ((scanRes (sA.dropLast ++ sB)).2) = sB := by
            rw [hscanO]
            show (sA.dropLast ++ sB).drop (1 + u.length) = sB
            have h2u : 1 + u.length = sA.dropLast.length := by rw [hulen]; omega
            rw [h2u, List.drop_left]
          rw [hOtake, hOdrop]
          -- idempotence on the two halves by induction
          have ihA := ih (ps.take ((scanRes ps).2 + 1)) (by rw [List.length_take]; omega)
          have ihB := ih (ps.drop ((scanRes ps).2)) (by rw [List.length_drop]; omega)
          rw [hsA] at ihA
          rw [hsB] at ihB
          rw [ihA, ihB]
        · rw [simplify_nosplit ps tol htol hlen hc]
          rw [simplify_short _ _ (by simp)]

theorem perpDist_le_of_sq_le (q a b : Pt) (tol : ℚ) (htol : 0 ≤ tol)
    (h : pden2 a b = 0 ∨ (pnum q a b) ^ 2 ≤ tol ^ 2 * pden2 a b) :
    perpDist q a b ≤ (tol : ℝ) := by
  rw [perpDist]
  by_cases hd : pden2 a b = 0
  · rw [if_pos hd]
    exact_mod_cast htol
  · rw [if_neg hd]
    have hsq : (pnum q a b) ^ 2 ≤ tol ^ 2 * pden2 a b := by
      rcases h with h | h
      · exact absurd h hd
      · exact h
    have hd0 : 0 < pden2 a b := lt_of_le_of_ne (pden2_nonneg a b) (Ne.symm hd)
    have hdR : (0:ℝ) < (pden2 a b : ℝ) := by exact_mod_cast hd0
    have hs : (0:ℝ) < Real.sqrt (pden2 a b) := Real.sqrt_pos.mpr hdR
    rw [div_le_iff₀ hs]
    have h1 : ((pnum q a b : ℝ)) ^ 2 ≤ (tol : ℝ) ^ 2 * ((pden2 a b : ℝ)) := by
      exact_mod_cast hsq
    have hp : (0:ℝ) ≤ (pnum q a b : ℝ) := by exact_mod_cast pnum_nonneg q a b
    have htolR : (0:ℝ) ≤ (tol : ℝ) := by exact_mod_cast htol
    have hts : (0:ℝ) ≤ (tol : ℝ) * Real.sqrt (pden2 a b) :=
      mul_nonneg htolR (Real.sqrt_nonneg _)
    nlinarith [Real.sq_sqrt (le_of_lt hdR)]

theorem covers_inv_single (tol : ℚ) (L : List Pt) (x : Pt) (h : Covers tol L [x]) :
    L = [x] := by
  cases h with
  | single a => rfl

theorem covers_refl_short (tol : ℚ) (ps : List Pt) (h : ps.length ≤ 2) :
    Covers tol ps ps := by
  match ps, h with
  | [], _ => exact Covers.nil
  | [p], _ => exact Covers.single p
  | (p :: q :: []), _ =>
      have h2 := @Covers.step tol p q [] [] [] (by simp) (@Covers.single tol q)
      simpa using h2

theorem covers_single_left (tol : ℚ) (M : List Pt) (x : Pt) (h : Covers tol [x] M) :
    M = [x] := by
  generalize hL : ([x] : List Pt) = L at h
  cases h with
  | nil => simp at hL
  | single a => rfl
  | step a b mid P Q hmid htail => simp at hL

theorem covers_glue (tol : ℚ) :
    ∀ {A QA : List Pt}, Covers tol A QA →
      ∀ (s : Pt) (P₂ Q₂ : List Pt), A.getLast? = some s → QA.getLast? = some s →
        Covers tol (s :: P₂) (s :: Q₂) →
        Covers tol (A.dropLast ++ s :: P₂) (QA.dropLast ++ s :: Q₂) := by
  intro A QA h
  induction h with
  | nil =>
      intro s P₂ Q₂ hA _ _
      simp at hA
  | single a =>
      intro s P₂ Q₂ hA _ hC
      simp only [List.getLast?_singleton, Option.some.injEq] at hA
      subst hA
      simpa using hC
  | step a b mid P Q hmid htail ih =>
      intro s P₂ Q₂ hA hQ hC
      have hconsA : a :: (mid ++ b :: P) = (a :: mid) ++ (b :: P) := by simp
      have hlastA : (b :: P).getLast? = some s := by
        rw [hconsA, List.getLast?_append_of_ne_nil _ (List.cons_ne_nil _ _)] at hA
        exact hA
      have hlastQ : (b :: Q).getLast? = some s := by
        have h4 : a :: b :: Q = [a] ++ (b :: Q) := by simp
        rw [h4, List.getLast?_append_of_ne_nil _ (List.cons_ne_nil _ _)] at hQ
        exact hQ
      rcases P with _ | ⟨p1, Pr⟩
      · -- the tail is the single point b, which must be s, and then Q = []
        simp only [List.getLast?_singleton, Option.some.injEq] at hlastA
        subst hlastA
        have hQ0 : b :: Q = [b] := covers_single_left tol _ _ htail
        have hQnil : Q = [] := by
          cases Q with
          | nil => rfl
          | cons q1 Qr => simp at hQ0
        subst hQnil
        have hd1 : (a :: (mid ++ [b])).dropLast = a :: mid := by
          have h5 : a :: (mid ++ [b]) = (a :: mid) ++ [b] := by simp
          rw [h5, List.dropLast_concat]
        have hd2 : (a :: b :: ([] : List Pt)).dropLast = [a] := by simp
        rw [hd1, hd2]
        have h6 := Covers.step a b mid P₂ Q₂ hmid hC
        simpa using h6
      · -- the tail still has at least two points; recurse
        have hQne : Q ≠ [] := by
          intro he
          subst he
          have h6 := covers_inv_single tol _ _ htail
          simp at h6
        obtain ⟨q1, Qr, rfl⟩ : ∃ q1 Qr, Q = q1 :: Qr := by
          cases Q with
          | nil => exact absurd rfl hQne
          | cons q1 Qr => exact ⟨q1, Qr, rfl⟩
        have ih2 := ih s P₂ Q₂ hlastA hlastQ hC
        rw [dropLast_cons_ne _ _ (List.cons_ne_nil _ _),
          dropLast_cons_ne _ _ (List.cons_ne_nil _ _), List.cons_append,
          List.cons_append] at ih2
        have h7 := Covers.step a b mid _ _ hmid ih2
        have hg1 : (a :: (mid ++ b :: p1 :: Pr)).dropLast ++ s :: P₂
            = a :: (mid ++ b :: ((p1 :: Pr).dropLast ++ s :: P₂)) := by
          rw [dropLast_cons_ne _ _ (by simp),
            List.dropLast_append_of_ne_nil _ (List.cons_ne_nil _ _),
            dropLast_cons_ne _ _ (List.cons_ne_nil _ _)]
          simp [List.cons_append, List.append_assoc]
        have hg2 : (a :: b :: q1 :: Qr).dropLast ++ s :: Q₂
            = a :: b :: ((q1 :: Qr).dropLast ++ s :: Q₂) := by
          rw [dropLast_cons_ne _ _ (by simp), dropLast_cons_ne _ _ (by simp)]
          simp [List.cons_append]
        rw [hg1, hg2]
        exact h7

theorem covers_simplify_aux (tol : ℚ) (htol : 0 ≤ tol) :
    ∀ (n : Nat) (ps : List Pt), ps.length ≤ n → Covers tol ps (simplify ps tol) := by
  intro n
  induction n with
  | zero =>
      intro ps hn
      have he : ps = [] := List.length_eq_zero.mp (Nat.le_zero.mp hn)
      subst he
      rw [simplify_short [] tol (by decide)]
      exact Covers.nil
  | succ n ih =>
      intro ps hn
      rcases Nat.lt_or_ge ps.length 3 with hlen | hlen
      · rw [simplify_short ps tol hlen]
        exact covers_refl_short tol ps (by omega)
      · have hnil : ps ≠ [] := by
          intro he
          rw [he] at hlen
          simp at hlen
        by_cases hc : (scanRes ps).1 ^ 2 > tol ^ 2 * pden2 ps.headI ps.getLastI
        · -- split case: glue the two recursive covers at the split point
          have hpos := scanRes_split_pos ps tol htol hc
          obtain ⟨hd2, hidx1, hidx2, hpk, hfirst, hub⟩ := scanRes_pos_facts ps hlen hpos
          have hidxlt : (scanRes ps).2 < ps.length := by omega
          rw [simplify_split ps tol htol hlen hc]
          have ihA := ih (ps.take ((scanRes ps).2 + 1)) (by rw [List.length_take]; omega)
          have ihB := ih (ps.drop ((scanRes ps).2)) (by rw [List.length_drop]; omega)
          have hlastA : (ps.take ((scanRes ps).2 + 1)).getLast?
              = some (ps.getD (scanRes ps).2 default) := getLast?_take_succ _ _ hidxlt
          have hlastsA : (simplify (ps.take ((scanRes ps).2 + 1)) tol).getLast?
              = some (ps.getD (scanRes ps).2 default) := by
            rw [simplify_getLast? _ tol htol]
            exact hlastA
          have hheadB : (ps.drop (scanRes ps).2).head?
              = some (ps.getD (scanRes ps).2 default) := head?_drop_getD _ _ hidxlt
          obtain ⟨B', hB'⟩ : ∃ B', ps.drop (scanRes ps).2
              = ps.getD (scanRes ps).2 default :: B' := ⟨_, cons_head?_tail hheadB⟩
          have hheadsB : (simplify (ps.drop (scanRes ps).2) tol).head?
              = some (ps.getD (scanRes ps).2 default) := by
            rw [simplify_head? _ tol htol]
            exact hheadB
          obtain ⟨Q', hQ'⟩ : ∃ Q', simplify (ps.drop (scanRes ps).2) tol
              = ps.getD (scanRes ps).2 default :: Q' := ⟨_, cons_head?_tail hheadsB⟩
          have hglue := covers_glue tol ihA (ps.getD (scanRes ps).2 default) B' Q'
            hlastA hlastsA (by rw [← hB', ← hQ']; exact ihB)
          have hAdl : (ps.take ((scanRes ps).2 + 1)).dropLast = ps.take (scanRes ps).2 := by
            rw [take_succ_getD _ _ hidxlt, List.dropLast_concat]
          rw [hAdl, ← hB', ← hQ', List.take_append_drop] at hglue
          exact hglue
        · -- no split: every interior point is within tolerance of the chord
          rw [simplify_nosplit ps tol htol hlen hc]
          have hmid : ∀ q ∈ (ps.drop 1).dropLast,
              perpDist q ps.headI ps.getLastI ≤ (tol : ℝ) := by
            intro q hq
            by_cases hd2 : pden2 ps.headI ps.getLastI = 0
            · exact perpDist_le_of_sq_le q _ _ tol htol (Or.inl hd2)
            · apply perpDist_le_of_sq_le q _ _ tol htol
              refine Or.inr ?_
              have h1 : pnum q ps.headI ps.getLastI ≤ (scanRes ps).1 :=
                scanRes_ub_mem ps hd2 q hq
              have h2 : (scanRes ps).1 ^ 2 ≤ tol ^ 2 * pden2 ps.headI ps.getLastI :=
                not_lt.mp hc
            -- (pnum q)^2 ≤ (scanRes ps).1 ^ 2 ≤ tol^2 * pden2
              have h0 : 0 ≤ pnum q ps.headI ps.getLastI := pnum_nonneg _ _ _
              nlinarith
          have hstep := @Covers.step tol ps.headI ps.getLastI ((ps.drop 1).dropLast) [] []
            hmid (@Covers.single tol ps.getLastI)
          rw [← interior_decomp ps (by omega)] at hstep
          exact hstep

/-- C3: the Douglas-Peucker simplifier is idempotent at any fixed
nonnegative tolerance: simplifying its own output at the same tolerance
changes nothing.  The rescan of the output finds the same split point as
the scan of the input (earlier retained points lie strictly below the
maximum, later ones do not exceed it), so the recursion retraces itself. -/
theorem c3_simplify_idempotent (ps : List Pt) (tol : ℚ) (htol : 0 ≤ tol) :
    simplify (simplify ps tol) tol = simplify ps tol :=
  simplify_idem_aux tol htol ps.length ps le_rfl

/-- Closed instance of `c3_simplify_idempotent` on a concrete 3-point
polyline at tolerance 1. -/
theorem c3_simplify_idempotent_witness :
    (0 ≤ (1:ℚ)) ∧
    simplify (simplify [((0:ℚ),(0:ℚ)), (1,1), (2,0)] 1) 1
      = simplify [((0:ℚ),(0:ℚ)), (1,1), (2,0)] 1 :=
  ⟨by norm_num, c3_simplify_idempotent [((0:ℚ),(0:ℚ)), (1,1), (2,0)] 1 (by norm_num)⟩

/-- C4: for a nonnegative tolerance, the simplifier output covers the
input: the input decomposes into the chain of retained points, and every
discarded point lies within perpendicular distance `tol` (distance to
the infinite line, as computed by `_perp_dist`) of the two retained
points that are adjacent to it in the output. -/
theorem c4_simplify_discarded_within_tolerance (ps : List Pt) (tol : ℚ) (htol : 0 ≤ tol) :
    Covers tol ps (simplify ps tol) :=
  covers_simplify_aux tol htol ps.length ps le_rfl

/-- Closed instance of `c4_simplify_discarded_within_tolerance` on a
concrete 3-point polyline at tolerance 2. -/
theorem c4_simplify_discarded_within_tolerance_witness :
    (0 ≤ (2:ℚ)) ∧
    Covers 2 [((0:ℚ),(0:ℚ)), (1,1), (2,0)] (simplify [((0:ℚ),(0:ℚ)), (1,1), (2,0)] 2) :=
  ⟨by norm_num, c4_simplify_discarded_within_tolerance [((0:ℚ),(0:ℚ)), (1,1), (2,0)] 2 (by norm_num)⟩

/-- C5: for a nonnegative tolerance, the simplifier output is a
subsequence of the input (an order-preserving selection of its points),
and the first and last input points are always present: the output's
head and last are exactly the input's head and last. -/
theorem c5_simplify_subsequence_endpoints (ps : List Pt) (tol : ℚ) (htol : 0 ≤ tol) :
    simplify ps tol <+ ps ∧
    (simplify ps tol).head? = ps.head? ∧
    (simplify ps tol).getLast? = ps.getLast? :=
  ⟨simplify_sublist ps tol htol, simplify_head? ps tol htol, simplify_getLast? ps tol htol⟩

/-- Closed instance of `c5_simplify_subsequence_endpoints` on a concrete
4-point polyline at tolerance 1/2. -/
theorem c5_simplify_subsequence_endpoints_witness :
    (0 ≤ (1/2:ℚ)) ∧
    (simplify [((0:ℚ),(0:ℚ)), (1,1), (2,0), (3,5)] (1/2)
        <+ [((0:ℚ),(0:ℚ)), (1,1), (2,0), (3,5)] ∧
     (simplify [((0:ℚ),(0:ℚ)), (1,1), (2,0), (3,5)] (1/2)).head?
        = ([((0:ℚ),(0:ℚ)), (1,1), (2,0), (3,5)] : List Pt).head? ∧
     (simplify [((0:ℚ),(0:ℚ)), (1,1), (2,0), (3,5)] (1/2)).getLast?
        = ([((0:ℚ),(0:ℚ)), (1,1), (2,0), (3,5)] : List Pt).getLast?) :=
  ⟨by norm_num, c5_simplify_subsequence_endpoints [((0:ℚ),(0:ℚ)), (1,1), (2,0), (3,5)] (1/2) (by norm_num)⟩
